import Mathlib

/-!
Shallow embedding of the library registry and indexing/query orchestration
layer of `src/main.rs` (archer884/search), with proofs about its behaviour.

The registry mapping `HashMap<PathBuf, String>` is modelled as an association
list of `(root, name)` pairs; list order is a representation artefact of the
unordered map. External collaborators (the tantivy Index Engine, the walkdir
Directory Walker, the scraper HTML parser, the `open` crate) are modelled as
parameters or, where the spec fixes their behaviour, by definitions marked
`Modelled from the spec`.
-/

namespace Search

/-- The failure `update_registry` produces: the library name is taken and
`force` was not given (`io::ErrorKind::AlreadyExists`). -/
inductive RegError
  | alreadyExists
deriving DecidableEq

/-- Models `HashMap::insert(root, name)`: any existing entry for the key
`root` is replaced by the fresh pair; other entries are untouched. -/
def insertPair (m : List (String × String)) (root name : String) :
    List (String × String) :=
  m.filter (fun p => !(p.1 == root)) ++ [(root, name)]

/-- Embeds `update_registry` (src/main.rs:360): fails when the name is already
a value of the mapping and `force` is not set; otherwise removes every entry
whose value equals the name and inserts the fresh pair. -/
def update_registry (m : List (String × String)) (root name : String)
    (force : Bool) : Except RegError (List (String × String)) :=
  if (m.any fun p => p.2 == name) && !force then
    .error .alreadyExists
  else
    .ok (insertPair (m.filter fun p => !(p.2 == name)) root name)

/-- Registry file content: either it holds a serialized mapping or it is a
truncated file that no longer parses as one. -/
inductive FileState
  | holds (m : List (String × String))
  | truncated
deriving DecidableEq

/-- Filesystem operations touching the registry file. -/
inductive FsOp
  | create
  | writeAll (m : List (String × String))
deriving DecidableEq

/-- Effect of one operation on the registry file: `File::create` truncates the
file in place; the serde write fills it with the new mapping. -/
def applyOp (_s : FileState) : FsOp → FileState
  | .create => .truncated
  | .writeAll m => .holds m

/-- The filesystem operations `update_registry` performs on the registry file:
none on the early error return; otherwise `File::create(&registry)` followed
by `serde_json::to_writer_pretty` of the whole new mapping
(src/main.rs:385). -/
def update_registry_ops (m : List (String × String)) (root name : String)
    (force : Bool) : List FsOp :=
  match update_registry m root name force with
  | .error _ => []
  | .ok m2 => [.create, .writeAll m2]

/-- Every state the registry file passes through while a list of operations
runs, the initial state included. -/
def registryStates (init : FileState) (ops : List FsOp) : List FileState :=
  ops.scanl applyOp init

/-- No two entries of the mapping carry the same library name. -/
def NoDupNames (m : List (String × String)) : Prop :=
  (m.map Prod.snd).Nodup

/-- A sequence of `register` calls `(root, name, force)` applied to the empty
registry; a failing call leaves the registry as it was. -/
def runCalls (calls : List (String × String × Bool)) : List (String × String) :=
  calls.foldl
    (fun m c =>
      match update_registry m c.1 c.2.1 c.2.2 with
      | .ok m2 => m2
      | .error _ => m)
    []

theorem update_registry_ok (m : List (String × String)) (root name : String)
    (force : Bool) (m2 : List (String × String))
    (h : update_registry m root name force = .ok m2) :
    m2 = insertPair (m.filter fun p => !(p.2 == name)) root name := by
  unfold update_registry at h
  split at h
  · exact absurd h (by simp)
  · exact (Except.ok.injEq _ _ ▸ h).symm

theorem noDupNames_insert (m : List (String × String)) (root name : String)
    (hm : NoDupNames m) :
    NoDupNames (insertPair (m.filter fun p => !(p.2 == name)) root name) := by
  unfold NoDupNames insertPair at *
  rw [List.map_append]
  rw [List.nodup_append]
  refine ⟨?_, by simp, ?_⟩
  · refine hm.sublist (List.Sublist.map _ ?_)
    exact ((List.filter_sublist _).trans (List.filter_sublist _))
  · intro a ha
    simp only [List.mem_map] at ha
    obtain ⟨p, hp, rfl⟩ := ha
    have hp1 : p ∈ m.filter (fun p => !(p.2 == name)) :=
      (List.filter_sublist _).subset hp
    have hp2 := (List.mem_filter.mp hp1).2
    simp only [List.map_cons, List.map_nil, List.mem_singleton]
    simpa using hp2

theorem runCalls_noDup_aux (calls : List (String × String × Bool)) :
    ∀ m : List (String × String), NoDupNames m →
      NoDupNames
        (calls.foldl
          (fun m c =>
            match update_registry m c.1 c.2.1 c.2.2 with
            | .ok m2 => m2
            | .error _ => m)
          m) := by
  induction calls with
  | nil => intro m hm; simpa using hm
  | cons c rest ih =>
    intro m hm
    rw [List.foldl_cons]
    apply ih
    rcases h : update_registry m c.1 c.2.1 c.2.2 with e | m2
    · simpa [h] using hm
    · have := update_registry_ok m c.1 c.2.1 c.2.2 m2 h
      simp only [h]
      rw [this]
      exact noDupNames_insert m c.1 c.2.1 hm

/-- Claim C1 fails as stated: registering a root under a name that is already
associated with that very root (and no other) still fails without `force`, so
the failure condition is the name being taken at all, not at a different
root. -/
theorem register_same_root_counterexample :
    update_registry [("r", "lib")] "r" "lib" false = .error .alreadyExists ∧
    ¬ ∃ p ∈ [("r", "lib")], p.2 = "lib" ∧ p.1 ≠ "r" := by
  constructor
  · rfl
  · decide

/-- Claim C1 (amended): with `force` false, `register` fails with
`AlreadyRegistered` iff the name is already associated with SOME root, the
same root included; and when it fails no filesystem operation runs, so the
persisted registry is unchanged. -/
theorem register_fails_iff_name_taken (m : List (String × String))
    (root name : String) :
    (update_registry m root name false = .error .alreadyExists ↔
      ∃ p ∈ m, p.2 = name) ∧
    (update_registry m root name false = .error .alreadyExists →
      registryStates (.holds m) (update_registry_ops m root name false) =
        [.holds m]) := by
  constructor
  · constructor
    · intro herr
      by_cases h : (m.any fun p => p.2 == name) = true
      · simp only [List.any_eq_true, beq_iff_eq] at h
        exact h
      · exfalso
        simp [update_registry, h] at herr
    · intro hex
      have h : (m.any fun p => p.2 == name) = true := by
        simp only [List.any_eq_true, beq_iff_eq]
        exact hex
      simp [update_registry, h]
  · intro herr
    unfold update_registry_ops
    rw [herr]
    rfl

/-- Witness for `register_fails_iff_name_taken` at a concrete registry. -/
theorem register_fails_iff_name_taken_witness :
    update_registry [("r", "lib")] "q" "lib" false = .error .alreadyExists ∧
    registryStates (.holds [("r", "lib")])
        (update_registry_ops [("r", "lib")] "q" "lib" false) =
      [.holds [("r", "lib")]] := by
  have h := register_fails_iff_name_taken [("r", "lib")] "q" "lib"
  have herr : update_registry [("r", "lib")] "q" "lib" false =
      .error .alreadyExists := h.1.mpr ⟨("r", "lib"), by simp, rfl⟩
  exact ⟨herr, h.2 herr⟩

/-- Claim C2: a successful `register` leaves the fresh pair in the mapping,
leaves no other entry carrying the given name, persists the whole new mapping
in one write, preserves name-uniqueness, and any sequence of `register` calls
from the empty registry yields a mapping without duplicate names. -/
theorem register_unique_names :
    (∀ (m : List (String × String)) (root name : String) (force : Bool)
        (m2 : List (String × String)),
      update_registry m root name force = .ok m2 →
        (root, name) ∈ m2 ∧
        (∀ p ∈ m2, p.2 = name → p = (root, name)) ∧
        update_registry_ops m root name force = [.create, .writeAll m2] ∧
        (NoDupNames m → NoDupNames m2)) ∧
    (∀ calls, NoDupNames (runCalls calls)) := by
  constructor
  · intro m root name force m2 h
    have hm2 := update_registry_ok m root name force m2 h
    refine ⟨?_, ?_, ?_, ?_⟩
    · rw [hm2]
      unfold insertPair
      simp
    · intro p hp hname
      rw [hm2] at hp
      unfold insertPair at hp
      rcases List.mem_append.mp hp with hleft | hright
      · exfalso
        have hp1 : p ∈ m.filter (fun p => !(p.2 == name)) :=
          (List.filter_sublist _).subset hleft
        have hp2 := (List.mem_filter.mp hp1).2
        simp [hname] at hp2
      · simpa using hright
    · unfold update_registry_ops
      rw [h]
    · intro hnd
      rw [hm2]
      exact noDupNames_insert m root name hnd
  · intro calls
    unfold runCalls
    exact runCalls_noDup_aux calls [] (by simp [NoDupNames])

/-- Witness for `register_unique_names` at a concrete call. -/
theorem register_unique_names_witness :
    ("a", "x") ∈ [("a", "x")] ∧ NoDupNames [("a", "x")] := by
  have h := register_unique_names.1 [] "a" "x" false [("a", "x")] rfl
  exact ⟨h.1, h.2.2.2 (by simp [NoDupNames])⟩

/-- Claim C8 fails as stated: on the success path the registry file passes
through a truncated state, the moment after `File::create` and before the
serde write, so the in-place replacement is not all-or-nothing. -/
theorem registry_truncated_counterexample :
    FileState.truncated ∈
      registryStates (.holds [("r", "old")])
        (update_registry_ops [("r", "old")] "r2" "new" false) := by
  decide

/-- Claim C8 (amended): the registry rewrite is in place, not atomic: on every
successful registration the file passes through exactly the states old
content, truncated, new content; a crash between `File::create` and the write
leaves a truncated registry. -/
theorem registry_rewrite_in_place (m m2 : List (String × String))
    (root name : String) (force : Bool)
    (h : update_registry m root name force = .ok m2) :
    registryStates (.holds m) (update_registry_ops m root name force) =
      [.holds m, .truncated, .holds m2] := by
  unfold update_registry_ops
  rw [h]
  rfl

/-- Witness for `registry_rewrite_in_place` at a concrete registration. -/
theorem registry_rewrite_in_place_witness :
    registryStates (.holds []) (update_registry_ops [] "a" "x" false) =
      [.holds [], .truncated, .holds [("a", "x")]] :=
  registry_rewrite_in_place [] [("a", "x")] "a" "x" false rfl

/-- Suffix of a file name after its last dot, the first character of the name
being excluded from consideration; `none` when no dot qualifies. Models the
split `std::path::Path::extension` performs on a file name. -/
def extCore : List Char → Option (List Char)
  | [] => none
  | c :: rest =>
    match extCore rest with
    | some e => some e
    | none => if c == '.' then some rest else none

/-- The final path component: models `Path::file_name` for paths without a
trailing separator, restarting after every slash. -/
def fileNameChars (l : List Char) : List Char :=
  l.foldl (fun acc c => if c == '/' then [] else acc ++ [c]) []

/-- Models `Path::extension`: the part of the file name after its last dot,
where a dot in first position starts a hidden-file stem rather than an
extension. -/
def extension (path : String) : Option String :=
  match fileNameChars path.data with
  | [] => none
  | _ :: rest => (extCore rest).map (fun l => String.mk l)

/-- Embeds `is_html` (src/main.rs:502): case-sensitive comparison of the
extension against htm and html; paths without an extension are not markup. -/
def is_html (path : String) : Bool :=
  ((extension path).map (fun a => ["htm", "html"].any (fun b => a == b))).getD
    false

/-- A directory entry the Directory Walker yields: its path and whether it is
a regular file. -/
structure DirEntry where
  path : String
  isFile : Bool
deriving DecidableEq

/-- The eligible-extension set of `read_paths` (src/main.rs:441). -/
def EXTENSIONS : List String := ["html", "htm", "txt"]

/-- Embeds `read_paths` (src/main.rs:439) over the walk result: error entries
and entries without an extension are dropped, and a path survives only when it
is a regular file whose extension is in `EXTENSIONS` (byte equality of
`OsStr`). -/
def read_paths (entries : List (Except Unit DirEntry)) : List String :=
  entries.filterMap fun entry =>
    match entry with
    | .error _ => none
    | .ok e =>
      match extension e.path with
      | none => none
      | some ext =>
        if e.isFile && EXTENSIONS.any (fun x => x == ext) then some e.path
        else none

/-- Claim C7: a walked entry is eligible for indexing iff it is a regular file
whose extension is exactly html, htm or txt; in particular the upper-case
extension HTML is not eligible. -/
theorem walker_eligibility :
    (∀ e : DirEntry, read_paths [.ok e] = [e.path] ↔
      (e.isFile = true ∧
        (extension e.path = some "html" ∨ extension e.path = some "htm" ∨
          extension e.path = some "txt"))) ∧
    read_paths [.ok ⟨"doc.HTML", true⟩] = [] := by
  constructor
  · intro e
    rcases hext : extension e.path with _ | ext
    · simp [read_paths, hext]
    · simp only [read_paths, List.filterMap, hext]
      by_cases hcond : (e.isFile && EXTENSIONS.any (fun x => x == ext)) = true
      · rw [if_pos hcond]
        simp only [Bool.and_eq_true, List.any_eq_true, EXTENSIONS] at hcond
        simp only [List.mem_cons, List.not_mem_nil] at hcond
        constructor
        · intro _
          refine ⟨hcond.1, ?_⟩
          obtain ⟨x, hx, hxe⟩ := hcond.2
          rw [beq_iff_eq] at hxe
          rcases hx with rfl | rfl | rfl | hfalse
          · exact Or.inl (by rw [hxe])
          · exact Or.inr (Or.inl (by rw [hxe]))
          · exact Or.inr (Or.inr (by rw [hxe]))
          · exact absurd hfalse (by simp)
        · intro _
          simp [List.filterMap_cons]
      · rw [if_neg hcond]
        simp only [Bool.and_eq_true, List.any_eq_true, EXTENSIONS] at hcond
        constructor
        · intro hcontra
          exact absurd hcontra (by simp)
        · intro ⟨hfile, hwhich⟩
          exfalso
          apply hcond
          refine ⟨hfile, ?_⟩
          rcases hwhich with hw | hw | hw
          · injection hw with hw
            exact ⟨"html", by simp, by rw [hw]; simp⟩
          · injection hw with hw
            exact ⟨"htm", by simp, by rw [hw]; simp⟩
          · injection hw with hw
            exact ⟨"txt", by simp, by rw [hw]; simp⟩
  · decide

/-- Claim C10: an entry the walker fails to yield is skipped silently; the
crawl of every other entry proceeds exactly as if the error entry had not
been there. -/
theorem walker_error_skipped (xs ys : List (Except Unit DirEntry)) (e : Unit) :
    read_paths (xs ++ .error e :: ys) = read_paths xs ++ read_paths ys := by
  unfold read_paths
  rw [List.filterMap_append, List.filterMap_cons]

/-- Models `str::trim`: whitespace stripped from both ends. -/
def strTrim (s : String) : String :=
  String.mk
    (((s.data.dropWhile Char.isWhitespace).reverse.dropWhile
        Char.isWhitespace).reverse)

/-- Embeds the per-file text extraction of the indexing loop
(src/main.rs:414): for a markup file the parsed text nodes are accumulated
into a buffer, every node preceded by one space and trimmed; any other file
passes through as decoded. `parse` models the external scraper fragment
parser yielding the human-visible text nodes in document order, tags and
attributes already discarded. -/
def extractText (parse : String → List String) (path text : String) : String :=
  if is_html path then
    (parse text).foldl (fun buf s => buf ++ " " ++ strTrim s) ""
  else text

/-- Concatenation with a single separating string between elements. -/
def sepJoin (sep : String) : List String → String
  | [] => ""
  | [x] => x
  | x :: y :: rest => x ++ sep ++ sepJoin sep (y :: rest)

/-- Modelled from the spec: extraction as §4.2 words it, the trimmed text
nodes concatenated with a single separating space between nodes, non-markup
text passed through unchanged. Stated for comparison against `extractText`,
which embeds the code. -/
def extractTextSpec (parse : String → List String) (path text : String) :
    String :=
  if is_html path then sepJoin " " ((parse text).map strTrim) else text

/-- The buffer contribution of the node list: one space and the trimmed node,
for every node. -/
def spacePrefixed (l : List String) : String :=
  l.foldr (fun s acc => " " ++ strTrim s ++ acc) ""

theorem foldl_strip_acc (l : List String) :
    ∀ buf : String,
      l.foldl (fun buf s => buf ++ " " ++ strTrim s) buf =
        buf ++ spacePrefixed l := by
  induction l with
  | nil => intro buf; simp [spacePrefixed, String.append_empty]
  | cons x xs ih =>
    intro buf
    rw [List.foldl_cons]
    rw [ih]
    simp [spacePrefixed, String.append_assoc]

theorem spacePrefixed_cons_eq (x : String) (xs : List String) :
    spacePrefixed (x :: xs) = " " ++ sepJoin " " (List.map strTrim (x :: xs)) := by
  induction xs generalizing x with
  | nil => simp [spacePrefixed, sepJoin, String.append_empty]
  | cons y ys ih =>
    have hy := ih y
    simp only [spacePrefixed, List.foldr_cons, List.map_cons] at hy ⊢
    rw [hy]
    simp [sepJoin, String.append_assoc]

/-- Claim C6 fails as stated: on the spec example nodes the code output
carries a leading space, because the loop writes one space before every text
node, the first included; so the output is not the plain
single-space-separated concatenation. -/
theorem html_strip_counterexample :
    extractText (fun _ => ["Hello ", "World"]) "x.html"
        "<p>Hello <b>World</b></p>" ≠
      extractTextSpec (fun _ => ["Hello ", "World"]) "x.html"
        "<p>Hello <b>World</b></p>" := by
  decide

/-- Claim C6 (amended): for a markup file each trimmed text node is prefixed by
one space, so the result is one leading space followed by the trimmed nodes
joined with single separating spaces (empty when there is no node); non-markup
files pass through as decoded text unchanged; and the markup branch is taken
exactly for the extensions htm and html. -/
theorem html_strip_leading_space (parse : String → List String)
    (path text : String) :
    (is_html path = true → parse text ≠ [] →
      extractText parse path text =
        " " ++ sepJoin " " ((parse text).map strTrim)) ∧
    (is_html path = true → parse text = [] →
      extractText parse path text = "") ∧
    (is_html path = false → extractText parse path text = text) ∧
    (is_html path = true ↔
      (extension path = some "htm" ∨ extension path = some "html")) := by
  refine ⟨?_, ?_, ?_, ?_⟩
  · intro hhtml hne
    unfold extractText
    rw [if_pos hhtml]
    rcases hp : parse text with _ | ⟨x, xs⟩
    · exact absurd hp hne
    · rw [foldl_strip_acc, String.empty_append, spacePrefixed_cons_eq]
  · intro hhtml hnil
    unfold extractText
    rw [if_pos hhtml, hnil]
    rfl
  · intro hhtml
    unfold extractText
    rw [if_neg (by simp [hhtml])]
  · unfold is_html
    rcases hext : extension path with _ | a
    · simp
    · simp only [Option.map_some', Option.getD_some, List.any_cons,
        List.any_nil, Bool.or_false, Bool.or_eq_true, beq_iff_eq,
        Option.some_inj]

/-- Witness for `html_strip_leading_space` on the spec example fragment. -/
theorem html_strip_leading_space_witness :
    extractText (fun _ => ["Hello ", "World"]) "x.html" "txt" =
      " " ++ sepJoin " "
        (((fun (_ : String) => ["Hello ", "World"]) "txt").map strTrim) :=
  (html_strip_leading_space (fun _ => ["Hello ", "World"]) "x.html" "txt").1
    (by decide) (by decide)

/-- Operations issued to the Index Engine writer while the build runs. -/
inductive WriterEvent
  | add (path text : String)
  | commit
deriving DecidableEq

/-- The batch size constant of `initialize` (src/main.rs:395). -/
def BATCH_SIZE : Nat := 20000

/-- Embeds the document loop of `initialize` (src/main.rs:404): `count` is the
running file counter; each iteration first bumps it and commits when it is a
multiple of `BATCH_SIZE`, then reads the file (`readFile`, a lossy-decoded
read whose error aborts the whole build through the `?` operator) and adds
the extracted document. Returns the writer events and the propagated error,
if any. -/
def indexGo (readFile : String → Except Unit String)
    (parse : String → List String) :
    List String → Nat → List WriterEvent × Option Unit
  | [], _ => ([], none)
  | p :: rest, count =>
    let count2 := count + 1
    let pre := if count2 % BATCH_SIZE == 0 then [WriterEvent.commit] else []
    match readFile p with
    | .error e => (pre, some e)
    | .ok data =>
      let out := indexGo readFile parse rest count2
      (pre ++ WriterEvent.add p (extractText parse p data) :: out.1, out.2)

/-- Embeds `initialize` (src/main.rs:389) from the writer on: the loop over
the eligible paths, then the unconditional final commit that runs only when
the loop did not abort. -/
def initIndex (readFile : String → Except Unit String)
    (parse : String → List String) (paths : List String) :
    List WriterEvent × Option Unit :=
  let out := indexGo readFile parse paths 0
  match out.2 with
  | some e => (out.1, some e)
  | none => (out.1 ++ [WriterEvent.commit], none)

/-- For every commit event, the number of add events preceding it; `n` counts
adds already seen. -/
def commitAddCounts : List WriterEvent → Nat → List Nat
  | [], _ => []
  | WriterEvent.add _ _ :: rest, n => commitAddCounts rest (n + 1)
  | WriterEvent.commit :: rest, n => n :: commitAddCounts rest n

/-- The paths of the documents added, in order. -/
def addedPaths (events : List WriterEvent) : List String :=
  events.filterMap fun ev =>
    match ev with
    | WriterEvent.add p _ => some p
    | WriterEvent.commit => none

theorem commitAddCounts_append (xs ys : List WriterEvent) :
    ∀ n, commitAddCounts (xs ++ ys) n =
      commitAddCounts xs n ++ commitAddCounts ys (n + (addedPaths xs).length) := by
  induction xs with
  | nil => intro n; simp [commitAddCounts, addedPaths]
  | cons ev rest ih =>
    intro n
    rcases ev with ⟨p, t⟩ | _
    · rw [List.cons_append]
      show commitAddCounts (rest ++ ys) (n + 1) = _
      rw [ih]
      have : (addedPaths (WriterEvent.add p t :: rest)).length =
          (addedPaths rest).length + 1 := by
        simp [addedPaths, List.filterMap_cons]
      rw [this]
      show _ = commitAddCounts rest (n + 1) ++
        commitAddCounts ys (n + ((addedPaths rest).length + 1))
      have harith : n + ((addedPaths rest).length + 1) =
          (n + 1) + (addedPaths rest).length := by omega
      rw [harith]
    · rw [List.cons_append]
      show n :: commitAddCounts (rest ++ ys) n = _
      rw [ih]
      have : (addedPaths (WriterEvent.commit :: rest)).length =
          (addedPaths rest).length := by
        simp [addedPaths, List.filterMap_cons]
      rw [this]
      rfl

theorem indexGo_snd_none (readFile : String → Except Unit String)
    (parse : String → List String) (xs : List String)
    (hok : ∀ p ∈ xs, ∃ t, readFile p = Except.ok t) :
    ∀ c, (indexGo readFile parse xs c).2 = none := by
  induction xs with
  | nil => intro c; rfl
  | cons p rest ih =>
    intro c
    obtain ⟨t, ht⟩ := hok p (by simp)
    have hrest : ∀ q ∈ rest, ∃ t, readFile q = Except.ok t :=
      fun q hq => hok q (by simp [hq])
    show (indexGo readFile parse (p :: rest) c).2 = none
    simp only [indexGo, ht]
    exact ih hrest (c + 1)

theorem indexGo_adds (readFile : String → Except Unit String)
    (parse : String → List String) (xs : List String)
    (hok : ∀ p ∈ xs, ∃ t, readFile p = Except.ok t) :
    ∀ c, addedPaths (indexGo readFile parse xs c).1 = xs := by
  induction xs with
  | nil => intro c; rfl
  | cons p rest ih =>
    intro c
    obtain ⟨t, ht⟩ := hok p (by simp)
    have hrest : ∀ q ∈ rest, ∃ t, readFile q = Except.ok t :=
      fun q hq => hok q (by simp [hq])
    simp only [indexGo, ht]
    by_cases hc : ((c + 1) % BATCH_SIZE == 0) = true
    · simp only [hc, if_pos, addedPaths, List.filterMap_append,
        List.filterMap_cons]
      have := ih hrest (c + 1)
      simpa [addedPaths] using this
    · simp only [hc, addedPaths, List.filterMap_cons, if_neg]
      have := ih hrest (c + 1)
      simpa [addedPaths] using this

theorem indexGo_counts (readFile : String → Except Unit String)
    (parse : String → List String) (xs : List String)
    (hok : ∀ p ∈ xs, ∃ t, readFile p = Except.ok t) :
    ∀ c, commitAddCounts (indexGo readFile parse xs c).1 c =
      (List.range xs.length).filterMap
        (fun i => if (c + i + 1) % BATCH_SIZE == 0 then some (c + i) else none) := by
  induction xs with
  | nil => intro c; simp [indexGo, commitAddCounts]
  | cons p rest ih =>
    intro c
    obtain ⟨t, ht⟩ := hok p (by simp)
    have hrest : ∀ q ∈ rest, ∃ t, readFile q = Except.ok t :=
      fun q hq => hok q (by simp [hq])
    have hshift :
        (List.range rest.length).filterMap
            (fun i => if (c + (i + 1) + 1) % BATCH_SIZE == 0 then
              some (c + (i + 1)) else none) =
          (List.range rest.length).filterMap
            (fun i => if ((c + 1) + i + 1) % BATCH_SIZE == 0 then
              some ((c + 1) + i) else none) := by
      apply List.filterMap_congr
      intro i _
      have h1 : c + (i + 1) + 1 = (c + 1) + i + 1 := by omega
      have h2 : c + (i + 1) = (c + 1) + i := by omega
      rw [h1, h2]
    have hlen : (p :: rest).length = rest.length + 1 := rfl
    rw [hlen, List.range_succ_eq_map, List.filterMap_cons]
    simp only [indexGo, ht]
    by_cases hc : ((c + 1) % BATCH_SIZE == 0) = true
    · have hzero : (c + 0 + 1) % BATCH_SIZE == 0 := by
        simpa using hc
      rw [if_pos hzero]
      simp only [hc, if_pos]
      show commitAddCounts
          (WriterEvent.commit ::
            WriterEvent.add p (extractText parse p t) ::
            (indexGo readFile parse rest (c + 1)).1) c = _
      show c :: commitAddCounts (indexGo readFile parse rest (c + 1)).1 (c + 1) = _
      rw [ih hrest (c + 1)]
      rw [List.filterMap_map]
      have : ((fun i => if (c + i + 1) % BATCH_SIZE == 0 then some (c + i)
          else none) ∘ Nat.succ) =
          (fun i => if (c + (i + 1) + 1) % BATCH_SIZE == 0 then
            some (c + (i + 1)) else none) := by
        funext i
        simp [Function.comp, Nat.succ_eq_add_one]
      rw [this, hshift]
      simp
    · have hzero : ¬ ((c + 0 + 1) % BATCH_SIZE == 0) = true := by
        simpa using hc
      rw [if_neg hzero]
      simp only [hc]
      show commitAddCounts
          (WriterEvent.add p (extractText parse p t) ::
            (indexGo readFile parse rest (c + 1)).1) c = _
      show commitAddCounts (indexGo readFile parse rest (c + 1)).1 (c + 1) = _
      rw [ih hrest (c + 1)]
      rw [List.filterMap_map]
      have : ((fun i => if (c + i + 1) % BATCH_SIZE == 0 then some (c + i)
          else none) ∘ Nat.succ) =
          (fun i => if (c + (i + 1) + 1) % BATCH_SIZE == 0 then
            some (c + (i + 1)) else none) := by
        funext i
        simp [Function.comp, Nat.succ_eq_add_one]
      rw [this, hshift]
      simp

theorem initIndex_counts (readFile : String → Except Unit String)
    (parse : String → List String) (paths : List String)
    (hok : ∀ p ∈ paths, ∃ t, readFile p = Except.ok t) :
    commitAddCounts (initIndex readFile parse paths).1 0 =
      (List.range paths.length).filterMap
          (fun i => if (i + 1) % BATCH_SIZE == 0 then some i else none) ++
        [paths.length] := by
  have h2 := indexGo_snd_none readFile parse paths hok 0
  have hinit : initIndex readFile parse paths =
      ((indexGo readFile parse paths 0).1 ++ [WriterEvent.commit], none) := by
    unfold initIndex
    simp only [h2]
  rw [hinit]
  show commitAddCounts
      ((indexGo readFile parse paths 0).1 ++ [WriterEvent.commit]) 0 = _
  rw [commitAddCounts_append]
  rw [indexGo_counts readFile parse paths hok 0]
  rw [indexGo_adds readFile parse paths hok 0]
  simp [commitAddCounts]

theorem batch_window_counts :
    (List.range (BATCH_SIZE + 1)).filterMap
        (fun i => if (i + 1) % BATCH_SIZE == 0 then some i else none) =
      [BATCH_SIZE - 1] := by
  have h1 : BATCH_SIZE + 1 = 19999 + 1 + 1 := by norm_num [BATCH_SIZE]
  rw [h1, List.range_succ, List.range_succ]
  rw [List.filterMap_append, List.filterMap_append]
  have hsmall : (List.range 19999).filterMap
        (fun i => if (i + 1) % BATCH_SIZE == 0 then some i else none) = [] := by
    rw [List.filterMap_eq_nil_iff]
    intro i hi
    rw [List.mem_range] at hi
    have hmod : (i + 1) % BATCH_SIZE = i + 1 :=
      Nat.mod_eq_of_lt (by unfold BATCH_SIZE; omega)
    rw [hmod]
    simp
  rw [hsmall]
  have hhit : (if (19999 + 1) % BATCH_SIZE == 0 then some 19999 else none) =
      some 19999 := by norm_num [BATCH_SIZE]
  have hmiss : (if (19999 + 1 + 1) % BATCH_SIZE == 0 then some (19999 + 1)
      else none) = none := by norm_num [BATCH_SIZE]
  simp only [List.filterMap_cons, List.filterMap_nil, hhit, hmiss]
  norm_num [BATCH_SIZE]

/-- Claim C4 fails as stated: on a build of BATCH_SIZE + 1 documents there is
no commit with exactly BATCH_SIZE added documents behind it, because the loop
commits at the top of the BATCH_SIZE-th iteration, before that document is
added: the commits happen after BATCH_SIZE - 1 and after all
BATCH_SIZE + 1 documents. -/
theorem commit_off_by_one_counterexample :
    1 * BATCH_SIZE ≤ (List.replicate (BATCH_SIZE + 1) "a").length ∧
    1 * BATCH_SIZE ∉
      commitAddCounts
        (initIndex (fun _ => Except.ok "") (fun _ => [])
          (List.replicate (BATCH_SIZE + 1) "a")).1 0 := by
  have hok : ∀ p ∈ List.replicate (BATCH_SIZE + 1) "a",
      ∃ t, (fun (_ : String) => (Except.ok "" : Except Unit String)) p =
        Except.ok t := fun p _ => ⟨"", rfl⟩
  constructor
  · simp
  · rw [initIndex_counts _ _ _ hok]
    rw [List.length_replicate, batch_window_counts]
    norm_num [BATCH_SIZE]

/-- Claim C4 (amended): when every file reads, the k-th batch commit happens
after exactly k * BATCH_SIZE - 1 added documents (the loop commits at the top
of the k * BATCH_SIZE-th iteration, before adding that document), and one
further unconditional commit after the loop has every document behind it, so
a build of fewer than BATCH_SIZE documents is still committed. -/
theorem commit_cadence (readFile : String → Except Unit String)
    (parse : String → List String) (paths : List String)
    (hok : ∀ p ∈ paths, ∃ t, readFile p = Except.ok t) :
    (∀ k, 1 ≤ k → k * BATCH_SIZE ≤ paths.length →
      k * BATCH_SIZE - 1 ∈
        commitAddCounts (initIndex readFile parse paths).1 0) ∧
    paths.length ∈ commitAddCounts (initIndex readFile parse paths).1 0 := by
  rw [initIndex_counts readFile parse paths hok]
  constructor
  · intro k hk hle
    apply List.mem_append_left
    rw [List.mem_filterMap]
    have hbpos : 0 < BATCH_SIZE := by norm_num [BATCH_SIZE]
    have hpos : 1 ≤ k * BATCH_SIZE := by
      calc 1 = 1 * 1 := by omega
      _ ≤ k * BATCH_SIZE := Nat.mul_le_mul hk hbpos
    refine ⟨k * BATCH_SIZE - 1, ?_, ?_⟩
    · rw [List.mem_range]
      omega
    · have heq : k * BATCH_SIZE - 1 + 1 = k * BATCH_SIZE := by omega
      rw [heq]
      have hmod : (k * BATCH_SIZE) % BATCH_SIZE = 0 := Nat.mul_mod_left k _
      simp [hmod]
  · apply List.mem_append_right
    simp

/-- Witness for `commit_cadence`: a one-document build ends fully
committed. -/
theorem commit_cadence_witness :
    (1 : Nat) ∈
      commitAddCounts
        (initIndex (fun _ => Except.ok "") (fun _ => []) ["a"]).1 0 := by
  have h := commit_cadence (fun _ => Except.ok "") (fun _ => []) ["a"]
    (fun p _ => ⟨"", rfl⟩)
  simpa using h.2

theorem indexGo_append (readFile : String → Except Unit String)
    (parse : String → List String) (xs ys : List String)
    (hxs : ∀ q ∈ xs, ∃ t, readFile q = Except.ok t) :
    ∀ c, indexGo readFile parse (xs ++ ys) c =
      ((indexGo readFile parse xs c).1 ++
          (indexGo readFile parse ys (c + xs.length)).1,
        (indexGo readFile parse ys (c + xs.length)).2) := by
  induction xs with
  | nil =>
    intro c
    simp [indexGo]
  | cons q rest ih =>
    intro c
    obtain ⟨t, ht⟩ := hxs q (by simp)
    have hrest : ∀ r ∈ rest, ∃ t, readFile r = Except.ok t :=
      fun r hr => hxs r (by simp [hr])
    simp only [List.cons_append, indexGo, ht]
    simp only [List.append_eq]
    rw [ih hrest (c + 1)]
    have harith : c + 1 + rest.length = c + (rest.length + 1) := by omega
    simp [harith, List.append_assoc]

/-- Claim C5 fails as stated: with three files of which the middle one is
unreadable, the build aborts with the propagated read error and the third
file is never indexed, instead of completing on the remaining files. -/
theorem read_failure_counterexample :
    (initIndex (fun p => if p == "b" then Except.error () else Except.ok "t")
        (fun _ => []) ["a", "b", "c"]).2 = some () ∧
    addedPaths
        (initIndex (fun p => if p == "b" then Except.error ()
            else Except.ok "t")
          (fun _ => []) ["a", "b", "c"]).1 = ["a"] := by
  constructor
  · rfl
  · rfl

/-- Claim C5 (amended): a failure to read a single file aborts the whole
build: the error propagates through the `?` operator, only the documents
before the failing file are ever added, and the final commit never runs. -/
theorem read_failure_aborts (readFile : String → Except Unit String)
    (parse : String → List String) (xs : List String) (p : String)
    (ys : List String) (e : Unit)
    (hxs : ∀ q ∈ xs, ∃ t, readFile q = Except.ok t)
    (hp : readFile p = Except.error e) :
    (initIndex readFile parse (xs ++ p :: ys)).2 = some e ∧
    addedPaths (initIndex readFile parse (xs ++ p :: ys)).1 = xs := by
  have happ := indexGo_append readFile parse xs (p :: ys) hxs 0
  have hP : indexGo readFile parse (p :: ys) (0 + xs.length) =
      ((if (0 + xs.length + 1) % BATCH_SIZE == 0 then [WriterEvent.commit]
          else []),
        some e) := by
    simp only [indexGo, hp]
  have hsnd : (indexGo readFile parse (xs ++ p :: ys) 0).2 = some e := by
    rw [happ, hP]
  have hinit : initIndex readFile parse (xs ++ p :: ys) =
      ((indexGo readFile parse (xs ++ p :: ys) 0).1, some e) := by
    unfold initIndex
    simp only [hsnd]
  constructor
  · rw [hinit]
  · rw [hinit]
    show addedPaths (indexGo readFile parse (xs ++ p :: ys) 0).1 = xs
    rw [happ]
    show addedPaths ((indexGo readFile parse xs 0).1 ++
      (indexGo readFile parse (p :: ys) (0 + xs.length)).1) = xs
    rw [hP]
    unfold addedPaths
    rw [List.filterMap_append]
    have hpre : (List.filterMap
        (fun ev =>
          match ev with
          | WriterEvent.add p _ => some p
          | WriterEvent.commit => none)
        (if (0 + xs.length + 1) % BATCH_SIZE == 0 then [WriterEvent.commit]
          else [])) = [] := by
      split
      · rfl
      · rfl
    rw [hpre, List.append_nil]
    exact indexGo_adds readFile parse xs hxs 0

/-- Witness for `read_failure_aborts` at a concrete three-file crawl. -/
theorem read_failure_aborts_witness :
    (initIndex (fun q => if q == "x" then Except.error () else Except.ok "t")
        (fun _ => []) (["w"] ++ "x" :: ["y"])).2 = some () ∧
    addedPaths
        (initIndex (fun q => if q == "x" then Except.error ()
            else Except.ok "t")
          (fun _ => []) (["w"] ++ "x" :: ["y"])).1 = ["w"] := by
  apply read_failure_aborts
  · intro q hq
    rw [List.mem_singleton] at hq
    subst hq
    exact ⟨"t", rfl⟩
  · rfl

/-- Modelled from the spec: the Index Engine's
`TopDocs::with_limit(limit).and_offset(offset)` retrieval — a top-K fetch
with K = limit + offset over the engine's full relevance-ranked hit list
(score paired with document id, highest relevance first), from which the
first `offset` hits are dropped. -/
def topDocs (limit offset : Nat) (ranked : List (Nat × Nat)) :
    List (Nat × Nat) :=
  (ranked.take (offset + limit)).drop offset

/-- Embeds the search pipeline of `run` (src/main.rs:274): fetch the top-K
window, then map each hit to its stored path field; `store` models
`searcher.doc(..).ok()` composed with `get_first(path).as_text()`, and a hit
whose document or path field is missing is dropped silently. -/
def runSearch (ranked : List (Nat × Nat)) (store : Nat → Option String)
    (skip tk : Nat) : List String :=
  (topDocs tk skip ranked).filterMap (fun h => store h.2)

/-- Claim C3: searching retrieves the top (skip + take) hits, drops the first
skip of them, yields at most take path strings, and when the engine ranking
is sorted highest relevance first so is the surviving window. -/
theorem search_pagination (ranked : List (Nat × Nat))
    (store : Nat → Option String) (skip tk : Nat) :
    runSearch ranked store skip tk =
      ((ranked.take (skip + tk)).drop skip).filterMap (fun h => store h.2) ∧
    (runSearch ranked store skip tk).length ≤ tk ∧
    (List.Pairwise (fun a b : Nat × Nat => b.1 ≤ a.1) ranked →
      List.Pairwise (fun a b : Nat × Nat => b.1 ≤ a.1)
        (topDocs tk skip ranked)) := by
  refine ⟨rfl, ?_, ?_⟩
  · have h1 : (runSearch ranked store skip tk).length ≤
        (topDocs tk skip ranked).length :=
      List.length_filterMap_le _ _
    have h2 : (topDocs tk skip ranked).length ≤ tk := by
      unfold topDocs
      rw [List.length_drop, List.length_take]
      omega
    omega
  · intro hsorted
    have hsub : List.Sublist (topDocs tk skip ranked) ranked := by
      unfold topDocs
      exact (List.drop_sublist _ _).trans (List.take_sublist _ _)
    exact hsorted.sublist hsub

/-- Witness for `search_pagination` on a concrete ranked list. -/
theorem search_pagination_witness :
    List.Pairwise (fun a b : Nat × Nat => b.1 ≤ a.1)
      (topDocs 1 1 [(5, 0), (3, 1), (1, 2)]) :=
  (search_pagination [(5, 0), (3, 1), (1, 2)] (fun _ => some "p") 1 1).2.2
    (by decide)

/-- What the process does while dispatching open requests. -/
inductive OpenEvent
  | sleepMs (ms : Nat)
  | openCall (path : String)
deriving DecidableEq

/-- Embeds the open loop of `run` (src/main.rs:285): `state` is false only
until the first path has been seen; every later iteration sleeps 500 ms
before calling the Opener; a failing `open::that` propagates through `?` and
stops the loop. `opener` models the external Opener service. -/
def openLoop (opener : String → Except Unit Unit) :
    List String → Bool → List OpenEvent × Option Unit
  | [], _ => ([], none)
  | p :: rest, state =>
    let pre := if state then [OpenEvent.sleepMs 500] else []
    match opener p with
    | .error e => (pre ++ [OpenEvent.openCall p], some e)
    | .ok _ =>
      let out := openLoop opener rest true
      (pre ++ OpenEvent.openCall p :: out.1, out.2)

/-- The dispatch of search results with `open` set: the loop starts with
`state = false`, so no delay precedes the first invocation. -/
def dispatchOpens (opener : String → Except Unit Unit) (paths : List String) :
    List OpenEvent × Option Unit :=
  openLoop opener paths false

/-- The paths passed to the Opener, in order. -/
def openedPaths (events : List OpenEvent) : List String :=
  events.filterMap fun ev =>
    match ev with
    | OpenEvent.openCall p => some p
    | OpenEvent.sleepMs _ => none

/-- Checks an event tail: an alternation of one 500 ms sleep before each
further open call. -/
def throttledTail : List OpenEvent → Bool
  | [] => true
  | OpenEvent.sleepMs ms :: OpenEvent.openCall _ :: rest =>
    (ms == 500) && throttledTail rest
  | _ => false

/-- Checks a whole trace: it opens immediately (no leading sleep) and then
alternates one 500 ms sleep before every further open. -/
def throttled : List OpenEvent → Bool
  | [] => true
  | OpenEvent.openCall _ :: rest => throttledTail rest
  | _ => false

theorem openLoop_throttledTail (opener : String → Except Unit Unit)
    (paths : List String) :
    throttledTail (openLoop opener paths true).1 = true := by
  induction paths with
  | nil => rfl
  | cons p rest ih =>
    rcases h : opener p with e | u
    · simp [openLoop, h, throttledTail]
    · simp only [openLoop, h]
      show throttledTail
        (OpenEvent.sleepMs 500 :: OpenEvent.openCall p ::
          (openLoop opener rest true).1) = true
      show ((500 == 500) && throttledTail (openLoop opener rest true).1) = true
      rw [ih]
      rfl

theorem openedPaths_pre (st : Bool) (l : List OpenEvent) :
    openedPaths ((if st then [OpenEvent.sleepMs 500] else []) ++ l) =
      openedPaths l := by
  unfold openedPaths
  rw [List.filterMap_append]
  split <;> simp [List.filterMap_cons]

theorem openedPaths_cons_call (p : String) (l : List OpenEvent) :
    openedPaths (OpenEvent.openCall p :: l) = p :: openedPaths l := by
  unfold openedPaths
  rw [List.filterMap_cons]

theorem openLoop_all_ok (opener : String → Except Unit Unit) :
    ∀ paths : List String, (∀ p ∈ paths, opener p = Except.ok ()) →
      ∀ st, openedPaths (openLoop opener paths st).1 = paths ∧
        (openLoop opener paths st).2 = none := by
  intro paths
  induction paths with
  | nil => intro _ st; exact ⟨rfl, rfl⟩
  | cons p rest ih =>
    intro hok st
    have hp := hok p (by simp)
    have hrest : ∀ q ∈ rest, opener q = Except.ok () :=
      fun q hq => hok q (by simp [hq])
    obtain ⟨h1, h2⟩ := ih hrest true
    simp only [openLoop, hp]
    constructor
    · rw [openedPaths_pre, openedPaths_cons_call, h1]
    · exact h2

theorem openLoop_fail_fast (opener : String → Except Unit Unit)
    (p : String) (ys : List String) (e : Unit)
    (hp : opener p = Except.error e) :
    ∀ xs : List String, (∀ q ∈ xs, opener q = Except.ok ()) →
      ∀ st, openedPaths (openLoop opener (xs ++ p :: ys) st).1 = xs ++ [p] ∧
        (openLoop opener (xs ++ p :: ys) st).2 = some e := by
  intro xs
  induction xs with
  | nil =>
    intro _ st
    simp only [List.nil_append, openLoop, hp]
    constructor
    · rw [openedPaths_pre]
      rfl
    · trivial
  | cons q rest ih =>
    intro hok st
    have hq := hok q (by simp)
    have hrest : ∀ r ∈ rest, opener r = Except.ok () :=
      fun r hr => hok r (by simp [hr])
    obtain ⟨h1, h2⟩ := ih hrest true
    simp only [List.cons_append, openLoop, hq]
    simp only [List.append_eq]
    constructor
    · rw [openedPaths_pre, openedPaths_cons_call, h1]
    · exact h2

/-- Claim C9: dispatch with open set calls the Opener on the paths in order,
with no delay before the first call and exactly one 500 ms sleep before every
later call; when every call succeeds all paths are opened; when a call fails
the error propagates, that path is the last one opened and the remaining
paths are never opened. -/
theorem dispatch_throttled_fail_fast (opener : String → Except Unit Unit)
    (paths : List String) :
    throttled (dispatchOpens opener paths).1 = true ∧
    ((∀ p ∈ paths, opener p = Except.ok ()) →
      openedPaths (dispatchOpens opener paths).1 = paths ∧
      (dispatchOpens opener paths).2 = none) ∧
    (∀ xs p ys e, paths = xs ++ p :: ys →
      (∀ q ∈ xs, opener q = Except.ok ()) → opener p = Except.error e →
      openedPaths (dispatchOpens opener paths).1 = xs ++ [p] ∧
      (dispatchOpens opener paths).2 = some e) := by
  refine ⟨?_, ?_, ?_⟩
  · unfold dispatchOpens
    cases paths with
    | nil => rfl
    | cons p rest =>
      rcases h : opener p with e | u
      · simp [openLoop, h, throttled, throttledTail]
      · simp only [openLoop, h]
        show throttled
          (OpenEvent.openCall p :: (openLoop opener rest true).1) = true
        show throttledTail (openLoop opener rest true).1 = true
        exact openLoop_throttledTail opener rest
  · intro hok
    exact openLoop_all_ok opener paths hok false
  · intro xs p ys e hpaths hxs hp
    subst hpaths
    exact openLoop_fail_fast opener p ys e hp xs hxs false

/-- Witness for `dispatch_throttled_fail_fast`: a failing second path stops
the dispatch after two opens. -/
theorem dispatch_throttled_fail_fast_witness :
    openedPaths
        (dispatchOpens
          (fun q => if q == "b" then Except.error () else Except.ok ())
          ["g", "b", "n"]).1 = ["g", "b"] ∧
    (dispatchOpens
        (fun q => if q == "b" then Except.error () else Except.ok ())
        ["g", "b", "n"]).2 = some () := by
  have h := dispatch_throttled_fail_fast
    (fun q => if q == "b" then Except.error () else Except.ok ())
    ["g", "b", "n"]
  exact h.2.2 ["g"] "b" ["n"] () rfl
    (fun q hq => by rw [List.mem_singleton] at hq; subst hq; rfl) rfl
